import Mathlib

/-!
Shallow embedding of the graph materialization and filtering engine of the
GraphVisualization component (knowledge-graph view): classification
resolution, latest-strategy selection, adjacency construction, two-hop
expansion, visibility filtering, subgraph projection and the click handlers.
Machine integers of the source (TS numbers used as integers) are modelled as
Int; JS Map/Set are modelled as association lists / duplicate-free lists with
the same insertion-order, last-write-wins and set semantics.
-/

namespace HackGraph

/-- Node discriminator, field `type` of GraphNode. -/
inductive NodeType where
  | strategy
  | company
  | evidence
  | lesson
deriving DecidableEq, Repr

/-- Classification enumeration of the component (`type Classification`). -/
inductive Classification where
  | Strike
  | Monitor
  | Disregard
  | Unclassified
deriving DecidableEq, Repr

/-- GraphNode record; only the fields the engine reads are carried
(`id`, `label`, `type`, `version?`, `classification?`). -/
structure GraphNode where
  id : String
  label : String
  type : NodeType
  version : Option Int
  classification : Option String
deriving DecidableEq, Repr

/-- RawEdge after normalization: bare-id endpoints plus a relation type. -/
structure RawEdge where
  source : String
  target : String
  type : String
deriving DecidableEq, Repr

/-- Embeds `getCompanyClassification`: the stored classification when it is
exactly Strike, Monitor or Disregard, else Unclassified. -/
def getCompanyClassification (node : GraphNode) : Classification :=
  if node.classification = some "Strike" then Classification.Strike
  else if node.classification = some "Monitor" then Classification.Monitor
  else if node.classification = some "Disregard" then Classification.Disregard
  else Classification.Unclassified

/-- Endpoint of a fetched link: either a bare id or an embedded node object,
as `fetchGraph` may deliver either. -/
inductive LinkEnd where
  | bare (id : String)
  | node (n : GraphNode)
deriving DecidableEq, Repr

/-- Fetched link prior to normalization in `load`. -/
structure FetchedLink where
  source : LinkEnd
  target : LinkEnd
  type : String
deriving DecidableEq, Repr

/-- Id carried by a link endpoint: the object's `id` field when the endpoint
is an embedded node object, the string itself when it is a bare id. -/
def endId : LinkEnd → String
  | LinkEnd.bare s => s
  | LinkEnd.node n => n.id

/-- Embeds the per-link normalization in `load`:
`typeof l.source === "object" ? l.source.id : l.source` (and same for target). -/
def normalizeLink (l : FetchedLink) : RawEdge :=
  RawEdge.mk (endId l.source) (endId l.target) l.type

/-- Embeds the edge-store update in `load`: `setRawEdges((data.links ?? []).map(...))`. -/
def loadEdges (ls : List FetchedLink) : List RawEdge :=
  ls.map normalizeLink

/-- UI state of the component: every useState field the click handlers can
see (graph store, loading/error flags, selection, expansion focus, active
classification filters, container dimensions). -/
structure UIState where
  fullNodes : List GraphNode
  rawEdges : List RawEdge
  loading : Bool
  error : Option String
  selectedNode : Option GraphNode
  expandedCompany : Option String
  activeFilters : List Classification
  width : Int
  height : Int
deriving Repr

/-- Embeds `handleNodeClick`: always selects the clicked node; for a company
node additionally toggles `expandedCompany` between the clicked id and null. -/
def handleNodeClick (s : UIState) (node : GraphNode) : UIState :=
  UIState.mk s.fullNodes s.rawEdges s.loading s.error (some node)
    (if node.type = NodeType.company then
      (if s.expandedCompany = some node.id then none else some node.id)
     else s.expandedCompany)
    s.activeFilters s.width s.height

/-- Embeds `handleBackgroundClick`: clears both the selection and the
expansion focus. -/
def handleBackgroundClick (s : UIState) : UIState :=
  UIState.mk s.fullNodes s.rawEdges s.loading s.error none none
    s.activeFilters s.width s.height

/-- Adjacency map of `expandedIds`: JS `Map<string, Set<string>>` modelled as
an association list of keys to duplicate-free neighbor lists, in insertion
order. -/
abbrev AdjMap : Type := List (String × List String)

/-- Duplicate-free append, JS `Set.add` semantics. -/
def setAdd (l : List String) (x : String) : List String :=
  if x ∈ l then l else l ++ [x]

/-- One half of `addEdge`: ensure key `a` exists, then add `b` to its
neighbor set (`if (!adj.has(a)) adj.set(a, new Set()); adj.get(a)!.add(b)`). -/
def addToKey : AdjMap → String → String → AdjMap
  | [], a, b => [(a, [b])]
  | (k, l) :: m, a, b =>
    if k = a then (k, setAdd l b) :: m
    else (k, l) :: addToKey m a b

/-- Embeds the local `addEdge` closure of `expandedIds`: insert each endpoint
into the other's neighbor set. -/
def addEdge (m : AdjMap) (a b : String) : AdjMap :=
  addToKey (addToKey m a b) b a

/-- Embeds the adjacency-construction loop `for (const e of rawEdges) addEdge(...)`. -/
def buildAdj (edges : List RawEdge) : AdjMap :=
  edges.foldl (fun m e => addEdge m e.source e.target) []

/-- Neighbor set of a key, empty when absent (`adj.get(k) ?? new Set()`). -/
def neighbors (m : AdjMap) (k : String) : List String :=
  ((m.find? (fun p => p.1 == k)).map Prod.snd).getD []

/-- Embeds `new Map(fullNodes.map((n) => [n.id, n]))` followed by `.get`:
for duplicate ids the last node wins, as with a JS Map constructor. -/
def nodeById (nodes : List GraphNode) (i : String) : Option GraphNode :=
  nodes.foldl (fun acc n => if n.id = i then some n else acc) none

/-- Guard of the direct-hop loop of `expandedIds`:
`n && (n.type === "evidence" || n.type === "lesson")`. -/
def isEvLesId (nodes : List GraphNode) (i : String) : Bool :=
  match nodeById nodes i with
  | some n => decide (n.type = NodeType.evidence ∨ n.type = NodeType.lesson)
  | none => false

/-- Guard of the strategy-mediated loop of `expandedIds`:
the node exists and has type strategy. -/
def isStrategyId (nodes : List GraphNode) (i : String) : Bool :=
  match nodeById nodes i with
  | some n => decide (n.type = NodeType.strategy)
  | none => false

/-- Shared body of both reveal loops of `expandedIds`: add to the result
every id of `ids` that resolves to an evidence or lesson node. -/
def addMatching (nodes : List GraphNode) (acc : List String) (ids : List String) :
    List String :=
  ids.foldl (fun acc i => if isEvLesId nodes i then setAdd acc i else acc) acc

/-- Two-hop walk of `expandedIds` past its guard: the direct-hop
evidence/lesson neighbors of the focus plus, for every strategy neighbor of
the focus, that strategy's evidence/lesson neighbors. -/
def expandedIdsCore (f : String) (es : List RawEdge) (nodes : List GraphNode) :
    List String :=
  let adj := buildAdj es
  let hop1 := neighbors adj f
  let r1 := addMatching nodes [] hop1
  hop1.foldl
    (fun acc i =>
      if isStrategyId nodes i then addMatching nodes acc (neighbors adj i) else acc)
    r1

/-- Embeds `expandedIds`. The guard `if (!expandedCompany) return new Set()`
is a JS falsiness test: it yields the empty set for a null focus and also for
the empty-string focus, and only otherwise runs the two-hop walk. -/
def expandedIds (focus : Option String) (es : List RawEdge) (nodes : List GraphNode) :
    List String :=
  match focus with
  | none => []
  | some f => if f = "" then [] else expandedIdsCore f es nodes

/-- Version of a node with the missing-field default of the source:
`n.version ?? 0`. -/
def ver (n : GraphNode) : Int := n.version.getD 0

/-- Embeds the loop body of `latestStrategyId`: keep the running best,
replacing it only when a strategy node has strictly greater version. -/
def pickBest (best : Option GraphNode) (n : GraphNode) : Option GraphNode :=
  if n.type = NodeType.strategy then
    match best with
    | none => some n
    | some b => if ver b < ver n then some n else some b
  else best

/-- Embeds the scan of `latestStrategyId` over the full node list. -/
def latestStrategy (nodes : List GraphNode) : Option GraphNode :=
  nodes.foldl pickBest none

/-- Embeds `latestStrategyId`: `best?.id ?? null`. -/
def latestStrategyId (nodes : List GraphNode) : Option String :=
  (latestStrategy nodes).map GraphNode.id

/-- Strategy nodes of the list, in input order. -/
def strategies (nodes : List GraphNode) : List GraphNode :=
  nodes.filter (fun n => decide (n.type = NodeType.strategy))

/-- Two-argument best-of: the later node wins only with strictly greater
version. -/
def pick2 (b n : GraphNode) : GraphNode := if ver b < ver n then n else b

/-- `pickBest` restricted to strategy nodes (the type test already done). -/
def pickBestS (best : Option GraphNode) (n : GraphNode) : Option GraphNode :=
  match best with
  | none => some n
  | some b => some (pick2 b n)

/-- Embeds the per-node visibility rule of `filteredData`: strategy iff it is
the latest strategy id, company iff its resolved classification is active,
evidence/lesson iff revealed by the expansion. -/
def nodeVisible (active : List Classification) (expanded : List String)
    (latest : Option String) (n : GraphNode) : Bool :=
  if n.type = NodeType.strategy ∧ latest = some n.id then true
  else if n.type = NodeType.company then decide (getCompanyClassification n ∈ active)
  else if (n.type = NodeType.evidence ∨ n.type = NodeType.lesson) ∧ n.id ∈ expanded then
    true
  else false

/-- Embeds the visible-id accumulation loop of `filteredData`. -/
def visibleNodeIds (nodes : List GraphNode) (active : List Classification)
    (expanded : List String) (latest : Option String) : List String :=
  nodes.foldl
    (fun acc n => if nodeVisible active expanded latest n then setAdd acc n.id else acc)
    []

/-- Result of the projection: the node and edge lists handed to the renderer. -/
structure Projected where
  nodes : List GraphNode
  links : List RawEdge

/-- Embeds the projection step of `filteredData`: nodes whose id is visible,
edges whose two endpoints are visible. -/
def project (nodes : List GraphNode) (es : List RawEdge) (visible : List String) :
    Projected :=
  Projected.mk
    (nodes.filter (fun n => decide (n.id ∈ visible)))
    (es.filter (fun e => decide (e.source ∈ visible) && decide (e.target ∈ visible)))

/-- Embeds the whole `filteredData` memo: visibility from the active filters,
the expansion of the current focus and the latest strategy id, then the
projection. -/
def filteredData (nodes : List GraphNode) (es : List RawEdge)
    (active : List Classification) (focus : Option String) : Projected :=
  project nodes es
    (visibleNodeIds nodes active (expandedIds focus es nodes) (latestStrategyId nodes))

/-- C6: the classification resolver returns the stored classification when it
is exactly one of Strike, Monitor or Disregard, and Unclassified in every
other case (missing field or any unknown string). -/
theorem c6_classification_resolver (n : GraphNode) :
    (n.classification = some "Strike" →
      getCompanyClassification n = Classification.Strike)
    ∧ (n.classification = some "Monitor" →
      getCompanyClassification n = Classification.Monitor)
    ∧ (n.classification = some "Disregard" →
      getCompanyClassification n = Classification.Disregard)
    ∧ (∀ c, n.classification = some c → c ≠ "Strike" → c ≠ "Monitor" →
      c ≠ "Disregard" → getCompanyClassification n = Classification.Unclassified)
    ∧ (n.classification = none →
      getCompanyClassification n = Classification.Unclassified) := by
  refine ⟨?_, ?_, ?_, ?_, ?_⟩ <;> intro h
  · simp [getCompanyClassification, h]
  · simp [getCompanyClassification, h]
  · simp [getCompanyClassification, h]
  · intro hc h1 h2 h3
    simp only [getCompanyClassification, hc]
    rw [if_neg, if_neg, if_neg] <;> simp [h1, h2, h3]
  · simp [getCompanyClassification, h]

/-- Witness for C6 at the concrete unknown classification "Acquired". -/
theorem c6_classification_resolver_witness :
    (GraphNode.mk "c1" "C1" NodeType.company none (some "Acquired")).classification
        = some "Acquired"
    ∧ getCompanyClassification
        (GraphNode.mk "c1" "C1" NodeType.company none (some "Acquired"))
        = Classification.Unclassified :=
  ⟨rfl, (c6_classification_resolver
      (GraphNode.mk "c1" "C1" NodeType.company none (some "Acquired"))).2.2.2.1
    "Acquired" rfl (by decide) (by decide) (by decide)⟩

/-- C7: a fetched link whose endpoint is an embedded node object is stored
with that endpoint replaced by the object's id; a bare-id endpoint is stored
unchanged; the stored edge list is exactly the normalized fetched list. -/
theorem c7_load_normalizes_endpoints (ls : List FetchedLink) (e : RawEdge) :
    (e ∈ loadEdges ls ↔ ∃ l, l ∈ ls ∧ e = normalizeLink l)
    ∧ (∀ n t ty, (normalizeLink (FetchedLink.mk (LinkEnd.node n) t ty)).source = n.id)
    ∧ (∀ s t ty, (normalizeLink (FetchedLink.mk (LinkEnd.bare s) t ty)).source = s)
    ∧ (∀ sr n ty, (normalizeLink (FetchedLink.mk sr (LinkEnd.node n) ty)).target = n.id)
    ∧ (∀ sr s ty, (normalizeLink (FetchedLink.mk sr (LinkEnd.bare s) ty)).target = s) := by
  refine ⟨?_, fun n t ty => rfl, fun s t ty => rfl,
    fun sr n ty => rfl, fun sr s ty => rfl⟩
  simp only [loadEdges, List.mem_map]
  constructor
  · rintro ⟨l, hl, rfl⟩; exact ⟨l, hl, rfl⟩
  · rintro ⟨l, hl, rfl⟩; exact ⟨l, hl, rfl⟩

/-- C8: a company-node click toggles the expansion focus: null or a different
prior focus becomes the clicked id, an equal prior focus becomes null. -/
theorem c8_company_click_toggles_focus (s : UIState) (node : GraphNode)
    (h : node.type = NodeType.company) :
    ((s.expandedCompany = none ∨ s.expandedCompany ≠ some node.id) →
      (handleNodeClick s node).expandedCompany = some node.id)
    ∧ (s.expandedCompany = some node.id →
      (handleNodeClick s node).expandedCompany = none) := by
  constructor
  · intro hprev
    have hne : s.expandedCompany ≠ some node.id := by
      rcases hprev with h0 | h0
      · rw [h0]; exact fun hc => Option.noConfusion hc
      · exact h0
    simp [handleNodeClick, h, hne]
  · intro heq
    simp [handleNodeClick, h, heq]

/-- Witness for C8: clicking company c1 with no prior focus sets the focus to
c1, clicking again clears it. -/
theorem c8_company_click_toggles_focus_witness :
    (GraphNode.mk "c1" "C1" NodeType.company none none).type = NodeType.company
    ∧ (((UIState.mk [] [] false none none none [] 800 400).expandedCompany = none
        ∨ (UIState.mk [] [] false none none none [] 800 400).expandedCompany
            ≠ some (GraphNode.mk "c1" "C1" NodeType.company none none).id) →
      (handleNodeClick (UIState.mk [] [] false none none none [] 800 400)
          (GraphNode.mk "c1" "C1" NodeType.company none none)).expandedCompany
        = some (GraphNode.mk "c1" "C1" NodeType.company none none).id)
    ∧ ((UIState.mk [] [] false none none none [] 800 400).expandedCompany
        = some (GraphNode.mk "c1" "C1" NodeType.company none none).id →
      (handleNodeClick (UIState.mk [] [] false none none none [] 800 400)
          (GraphNode.mk "c1" "C1" NodeType.company none none)).expandedCompany
        = none) :=
  ⟨rfl, (c8_company_click_toggles_focus
      (UIState.mk [] [] false none none none [] 800 400)
      (GraphNode.mk "c1" "C1" NodeType.company none none) rfl).1,
    (c8_company_click_toggles_focus
      (UIState.mk [] [] false none none none [] 800 400)
      (GraphNode.mk "c1" "C1" NodeType.company none none) rfl).2⟩

/-- C10: clicking a strategy, evidence or lesson node updates only the
selection, leaving the expansion focus and every other UI-state field
unchanged; a background click nulls both the selection and the focus and
changes nothing else. -/
theorem c10_click_frame_conditions (s : UIState) (node : GraphNode)
    (h : node.type = NodeType.strategy ∨ node.type = NodeType.evidence
        ∨ node.type = NodeType.lesson) :
    ((handleNodeClick s node).selectedNode = some node
      ∧ (handleNodeClick s node).expandedCompany = s.expandedCompany
      ∧ (handleNodeClick s node).activeFilters = s.activeFilters
      ∧ (handleNodeClick s node).fullNodes = s.fullNodes
      ∧ (handleNodeClick s node).rawEdges = s.rawEdges
      ∧ (handleNodeClick s node).loading = s.loading
      ∧ (handleNodeClick s node).error = s.error
      ∧ (handleNodeClick s node).width = s.width
      ∧ (handleNodeClick s node).height = s.height)
    ∧ ((handleBackgroundClick s).selectedNode = none
      ∧ (handleBackgroundClick s).expandedCompany = none
      ∧ (handleBackgroundClick s).activeFilters = s.activeFilters
      ∧ (handleBackgroundClick s).fullNodes = s.fullNodes
      ∧ (handleBackgroundClick s).rawEdges = s.rawEdges
      ∧ (handleBackgroundClick s).loading = s.loading
      ∧ (handleBackgroundClick s).error = s.error
      ∧ (handleBackgroundClick s).width = s.width
      ∧ (handleBackgroundClick s).height = s.height) := by
  have hne : node.type ≠ NodeType.company := by
    rcases h with h0 | h0 | h0 <;> rw [h0] <;> exact fun hc => NodeType.noConfusion hc
  constructor
  · refine ⟨rfl, ?_, rfl, rfl, rfl, rfl, rfl, rfl, rfl⟩
    simp [handleNodeClick, hne]
  · exact ⟨rfl, rfl, rfl, rfl, rfl, rfl, rfl, rfl, rfl⟩

/-- Witness for C10 at a concrete evidence-node click on a state with an
active expansion focus. -/
theorem c10_click_frame_conditions_witness :
    ((GraphNode.mk "e1" "E1" NodeType.evidence none none).type = NodeType.strategy
      ∨ (GraphNode.mk "e1" "E1" NodeType.evidence none none).type = NodeType.evidence
      ∨ (GraphNode.mk "e1" "E1" NodeType.evidence none none).type = NodeType.lesson)
    ∧ (handleNodeClick
        (UIState.mk [] [] false none none (some "c1") [Classification.Strike] 800 400)
        (GraphNode.mk "e1" "E1" NodeType.evidence none none)).expandedCompany
      = (UIState.mk [] [] false none none (some "c1") [Classification.Strike] 800 400).expandedCompany :=
  ⟨Or.inr (Or.inl rfl),
    (c10_click_frame_conditions
      (UIState.mk [] [] false none none (some "c1") [Classification.Strike] 800 400)
      (GraphNode.mk "e1" "E1" NodeType.evidence none none)
      (Or.inr (Or.inl rfl))).1.2.1⟩

theorem mem_setAdd (l : List String) (x y : String) :
    y ∈ setAdd l x ↔ y ∈ l ∨ y = x := by
  by_cases h : x ∈ l
  · rw [setAdd, if_pos h]
    constructor
    · exact Or.inl
    · rintro (hy | rfl)
      · exact hy
      · exact h
  · rw [setAdd, if_neg h]
    simp

theorem nodup_setAdd (l : List String) (x : String) (h : l.Nodup) :
    (setAdd l x).Nodup := by
  by_cases hx : x ∈ l
  · rw [setAdd, if_pos hx]; exact h
  · rw [setAdd, if_neg hx, List.nodup_append]
    refine ⟨h, List.nodup_singleton x, ?_⟩
    intro a ha hb
    rw [List.mem_singleton] at hb
    subst hb
    exact hx ha

theorem neighbors_cons (pk : String) (pl : List String) (m : AdjMap) (k : String) :
    neighbors ((pk, pl) :: m) k = if pk = k then pl else neighbors m k := by
  by_cases h : pk = k
  · rw [if_pos h]
    unfold neighbors
    rw [List.find?_cons_of_pos]
    · rfl
    · simpa using h
  · rw [if_neg h]
    unfold neighbors
    rw [List.find?_cons_of_neg]
    simpa using h

theorem mem_neighbors_addToKey (m : AdjMap) (a b k x : String) :
    x ∈ neighbors (addToKey m a b) k ↔ (k = a ∧ x = b) ∨ x ∈ neighbors m k := by
  induction m with
  | nil =>
    show x ∈ neighbors [(a, [b])] k ↔ (k = a ∧ x = b) ∨ x ∈ neighbors [] k
    rw [neighbors_cons]
    by_cases hk : a = k
    · rw [if_pos hk]
      constructor
      · intro hx
        exact Or.inl ⟨hk.symm, List.mem_singleton.mp hx⟩
      · rintro (⟨h1, h2⟩ | hx)
        · exact List.mem_singleton.mpr h2
        · exact absurd hx (List.not_mem_nil x)
    · rw [if_neg hk]
      constructor
      · intro hx
        exact absurd hx (List.not_mem_nil x)
      · rintro (⟨h1, h2⟩ | hx)
        · exact absurd h1.symm hk
        · exact hx
  | cons p m ih =>
    rcases p with ⟨pk, pl⟩
    by_cases hpa : pk = a
    · subst hpa
      rw [show addToKey ((pk, pl) :: m) pk b = (pk, setAdd pl b) :: m from by
        simp [addToKey]]
      rw [neighbors_cons, neighbors_cons]
      by_cases hk : pk = k
      · rw [if_pos hk, if_pos hk, mem_setAdd]
        constructor
        · rintro (hx | rfl)
          · exact Or.inr hx
          · exact Or.inl ⟨hk.symm, rfl⟩
        · rintro (⟨h1, rfl⟩ | hx)
          · exact Or.inr rfl
          · exact Or.inl hx
      · rw [if_neg hk, if_neg hk]
        constructor
        · exact Or.inr
        · rintro (⟨h1, rfl⟩ | hx)
          · exact absurd h1.symm hk
          · exact hx
    · rw [show addToKey ((pk, pl) :: m) a b = (pk, pl) :: addToKey m a b from by
        simp [addToKey, hpa]]
      rw [neighbors_cons, neighbors_cons]
      by_cases hk : pk = k
      · rw [if_pos hk, if_pos hk]
        constructor
        · exact Or.inr
        · rintro (⟨rfl, rfl⟩ | hx)
          · exact absurd hk hpa
          · exact hx
      · rw [if_neg hk, if_neg hk]
        exact ih

theorem nodup_neighbors_addToKey (m : AdjMap) (a b : String)
    (h : ∀ p ∈ m, (Prod.snd p).Nodup) :
    ∀ p ∈ addToKey m a b, (Prod.snd p).Nodup := by
  induction m with
  | nil =>
    intro p hp
    have hp2 : p = (a, [b]) := List.mem_singleton.mp hp
    subst hp2
    exact List.nodup_singleton b
  | cons q m ih =>
    rcases q with ⟨qk, ql⟩
    intro p hp
    by_cases hq : qk = a
    · rw [show addToKey ((qk, ql) :: m) a b = (qk, setAdd ql b) :: m from by
        simp [addToKey, hq]] at hp
      rcases List.mem_cons.mp hp with rfl | hp2
      · exact nodup_setAdd ql b (h _ (List.mem_cons_self _ _))
      · exact h _ (List.mem_cons_of_mem _ hp2)
    · rw [show addToKey ((qk, ql) :: m) a b = (qk, ql) :: addToKey m a b from by
        simp [addToKey, hq]] at hp
      rcases List.mem_cons.mp hp with rfl | hp2
      · exact h _ (List.mem_cons_self _ _)
      · exact ih (fun r hr => h _ (List.mem_cons_of_mem _ hr)) _ hp2

theorem mem_neighbors_addEdge (m : AdjMap) (a b k x : String) :
    x ∈ neighbors (addEdge m a b) k ↔
      (k = a ∧ x = b) ∨ (k = b ∧ x = a) ∨ x ∈ neighbors m k := by
  simp only [addEdge, mem_neighbors_addToKey]
  tauto

theorem nodup_neighbors_addEdge (m : AdjMap) (a b : String)
    (h : ∀ p ∈ m, (Prod.snd p).Nodup) :
    ∀ p ∈ addEdge m a b, (Prod.snd p).Nodup :=
  nodup_neighbors_addToKey _ _ _ (nodup_neighbors_addToKey m a b h)

/-- Characterization of the built adjacency: `x` is recorded as a neighbor of
`k` exactly when some input edge joins `k` and `x` in either direction. -/
theorem mem_neighbors_buildAdj (es : List RawEdge) (k x : String) :
    x ∈ neighbors (buildAdj es) k ↔
      ∃ e, e ∈ es ∧ ((e.source = k ∧ e.target = x) ∨ (e.target = k ∧ e.source = x)) := by
  have key : ∀ (l : List RawEdge) (m : AdjMap),
      x ∈ neighbors (l.foldl (fun m e => addEdge m e.source e.target) m) k ↔
        x ∈ neighbors m k ∨
          ∃ e, e ∈ l ∧ ((e.source = k ∧ e.target = x) ∨ (e.target = k ∧ e.source = x)) := by
    intro l
    induction l with
    | nil =>
      intro m
      simp
    | cons e l ih =>
      intro m
      rw [List.foldl_cons, ih, mem_neighbors_addEdge]
      constructor
      · rintro ((⟨h1, h2⟩ | ⟨h1, h2⟩ | hm) | ⟨f, hf, hor⟩)
        · exact Or.inr ⟨e, List.mem_cons_self e l, Or.inl ⟨h1.symm, h2.symm⟩⟩
        · exact Or.inr ⟨e, List.mem_cons_self e l, Or.inr ⟨h1.symm, h2.symm⟩⟩
        · exact Or.inl hm
        · exact Or.inr ⟨f, List.mem_cons_of_mem e hf, hor⟩
      · rintro (hm | ⟨f, hf, hor⟩)
        · exact Or.inl (Or.inr (Or.inr hm))
        · rcases List.mem_cons.mp hf with rfl | hf2
          · rcases hor with ⟨h1, h2⟩ | ⟨h1, h2⟩
            · exact Or.inl (Or.inl ⟨h1.symm, h2.symm⟩)
            · exact Or.inl (Or.inr (Or.inl ⟨h1.symm, h2.symm⟩))
          · exact Or.inr ⟨f, hf2, hor⟩
  rw [show buildAdj es = es.foldl (fun m e => addEdge m e.source e.target) [] from rfl,
    key es []]
  rw [show neighbors ([] : AdjMap) k = [] from rfl]
  simp

theorem nodup_neighbors_buildAdj (es : List RawEdge) (k : String) :
    (neighbors (buildAdj es) k).Nodup := by
  have key : ∀ (l : List RawEdge) (m : AdjMap), (∀ p ∈ m, (Prod.snd p).Nodup) →
      ∀ p ∈ l.foldl (fun m e => addEdge m e.source e.target) m,
        (Prod.snd p).Nodup := by
    intro l
    induction l with
    | nil =>
      intro m hm
      simpa using hm
    | cons e l ih =>
      intro m hm
      rw [List.foldl_cons]
      exact ih _ (nodup_neighbors_addEdge m e.source e.target hm)
  have hall : ∀ p ∈ buildAdj es, (Prod.snd p).Nodup := key es [] (by simp)
  unfold neighbors
  cases hf : (buildAdj es).find? (fun p => p.1 == k) with
  | none => simp
  | some p =>
    exact hall p (List.mem_of_find?_eq_some hf)

/-- C5: the adjacency index is symmetric, holds no duplicate neighbor
entries, and its membership relation is invariant under permutation of the
input edge list. -/
theorem c5_adjacency_symmetric_nodup_perm (es es' : List RawEdge)
    (h : es.Perm es') (a b : String) :
    (b ∈ neighbors (buildAdj es) a ↔ a ∈ neighbors (buildAdj es) b)
    ∧ (neighbors (buildAdj es) a).Nodup
    ∧ (b ∈ neighbors (buildAdj es') a ↔ b ∈ neighbors (buildAdj es) a) := by
  refine ⟨?_, nodup_neighbors_buildAdj es a, ?_⟩
  · simp only [mem_neighbors_buildAdj]
    constructor
    · rintro ⟨e, he, ⟨h1, h2⟩ | ⟨h1, h2⟩⟩
      · exact ⟨e, he, Or.inr ⟨h2, h1⟩⟩
      · exact ⟨e, he, Or.inl ⟨h2, h1⟩⟩
    · rintro ⟨e, he, ⟨h1, h2⟩ | ⟨h1, h2⟩⟩
      · exact ⟨e, he, Or.inr ⟨h2, h1⟩⟩
      · exact ⟨e, he, Or.inl ⟨h2, h1⟩⟩
  · simp only [mem_neighbors_buildAdj]
    constructor
    · rintro ⟨e, he, hor⟩; exact ⟨e, h.mem_iff.mpr he, hor⟩
    · rintro ⟨e, he, hor⟩; exact ⟨e, h.mem_iff.mp he, hor⟩

/-- Witness for C5 on a two-edge multi-set reordered. -/
theorem c5_adjacency_symmetric_nodup_perm_witness :
    ([RawEdge.mk "a" "b" "t", RawEdge.mk "b" "a" "u"].Perm
      [RawEdge.mk "b" "a" "u", RawEdge.mk "a" "b" "t"])
    ∧ ((("b" : String) ∈ neighbors
          (buildAdj [RawEdge.mk "a" "b" "t", RawEdge.mk "b" "a" "u"]) "a" ↔
        ("a" : String) ∈ neighbors
          (buildAdj [RawEdge.mk "a" "b" "t", RawEdge.mk "b" "a" "u"]) "b")
      ∧ (neighbors (buildAdj [RawEdge.mk "a" "b" "t", RawEdge.mk "b" "a" "u"]) "a").Nodup
      ∧ (("b" : String) ∈ neighbors
          (buildAdj [RawEdge.mk "b" "a" "u", RawEdge.mk "a" "b" "t"]) "a" ↔
        ("b" : String) ∈ neighbors
          (buildAdj [RawEdge.mk "a" "b" "t", RawEdge.mk "b" "a" "u"]) "a")) :=
  ⟨List.Perm.swap _ _ _,
    c5_adjacency_symmetric_nodup_perm
      [RawEdge.mk "a" "b" "t", RawEdge.mk "b" "a" "u"]
      [RawEdge.mk "b" "a" "u", RawEdge.mk "a" "b" "t"]
      (List.Perm.swap _ _ _) "a" "b"⟩

theorem mem_foldl_guard {α : Type} (f : α → Bool) (g : α → String)
    (l : List α) (init : List String) (x : String) :
    x ∈ l.foldl (fun acc n => if f n then setAdd acc (g n) else acc) init ↔
      x ∈ init ∨ ∃ n, n ∈ l ∧ f n = true ∧ g n = x := by
  induction l generalizing init with
  | nil => simp
  | cons n l ih =>
    rw [List.foldl_cons]
    by_cases hf : f n = true
    · rw [if_pos hf, ih, mem_setAdd]
      constructor
      · rintro ((hx | rfl) | ⟨m, hm, hfm, rfl⟩)
        · exact Or.inl hx
        · exact Or.inr ⟨n, List.mem_cons_self n l, hf, rfl⟩
        · exact Or.inr ⟨m, List.mem_cons_of_mem n hm, hfm, rfl⟩
      · rintro (hx | ⟨m, hm, hfm, rfl⟩)
        · exact Or.inl (Or.inl hx)
        · rcases List.mem_cons.mp hm with rfl | hm2
          · exact Or.inl (Or.inr rfl)
          · exact Or.inr ⟨m, hm2, hfm, rfl⟩
    · rw [if_neg hf, ih]
      constructor
      · rintro (hx | ⟨m, hm, hfm, rfl⟩)
        · exact Or.inl hx
        · exact Or.inr ⟨m, List.mem_cons_of_mem n hm, hfm, rfl⟩
      · rintro (hx | ⟨m, hm, hfm, rfl⟩)
        · exact Or.inl hx
        · rcases List.mem_cons.mp hm with rfl | hm2
          · exact absurd hfm hf
          · exact Or.inr ⟨m, hm2, hfm, rfl⟩

theorem mem_addMatching (nodes : List GraphNode) (acc ids : List String) (x : String) :
    x ∈ addMatching nodes acc ids ↔
      x ∈ acc ∨ (x ∈ ids ∧ isEvLesId nodes x = true) := by
  rw [addMatching, mem_foldl_guard (isEvLesId nodes) (fun i => i)]
  constructor
  · rintro (hx | ⟨i, hi, hf, rfl⟩)
    · exact Or.inl hx
    · exact Or.inr ⟨hi, hf⟩
  · rintro (hx | ⟨hi, hf⟩)
    · exact Or.inl hx
    · exact Or.inr ⟨x, hi, hf, rfl⟩

theorem mem_foldl_strategyHop (nodes : List GraphNode) (adjnb : String → List String)
    (l : List String) (init : List String) (x : String) :
    x ∈ l.foldl
        (fun acc i =>
          if isStrategyId nodes i then addMatching nodes acc (adjnb i) else acc)
        init ↔
      x ∈ init ∨ ∃ i, i ∈ l ∧ isStrategyId nodes i = true ∧ x ∈ adjnb i
        ∧ isEvLesId nodes x = true := by
  induction l generalizing init with
  | nil => simp
  | cons i l ih =>
    rw [List.foldl_cons]
    by_cases hs : isStrategyId nodes i = true
    · rw [if_pos hs, ih, mem_addMatching]
      constructor
      · rintro ((hx | ⟨hxn, hev⟩) | ⟨j, hj, hsj, hxj, hev⟩)
        · exact Or.inl hx
        · exact Or.inr ⟨i, List.mem_cons_self i l, hs, hxn, hev⟩
        · exact Or.inr ⟨j, List.mem_cons_of_mem i hj, hsj, hxj, hev⟩
      · rintro (hx | ⟨j, hj, hsj, hxj, hev⟩)
        · exact Or.inl (Or.inl hx)
        · rcases List.mem_cons.mp hj with rfl | hj2
          · exact Or.inl (Or.inr ⟨hxj, hev⟩)
          · exact Or.inr ⟨j, hj2, hsj, hxj, hev⟩
    · rw [if_neg hs, ih]
      constructor
      · rintro (hx | ⟨j, hj, hsj, hxj, hev⟩)
        · exact Or.inl hx
        · exact Or.inr ⟨j, List.mem_cons_of_mem i hj, hsj, hxj, hev⟩
      · rintro (hx | ⟨j, hj, hsj, hxj, hev⟩)
        · exact Or.inl hx
        · rcases List.mem_cons.mp hj with rfl | hj2
          · exact absurd hsj hs
          · exact Or.inr ⟨j, hj2, hsj, hxj, hev⟩

theorem expandedIds_some (f : String) (hf : f ≠ "") (es : List RawEdge)
    (nodes : List GraphNode) :
    expandedIds (some f) es nodes = expandedIdsCore f es nodes := by
  rw [show expandedIds (some f) es nodes
      = if f = "" then [] else expandedIdsCore f es nodes from rfl, if_neg hf]

theorem expandedIds_empty_string (es : List RawEdge) (nodes : List GraphNode) :
    expandedIds (some "") es nodes = [] := by
  rw [show expandedIds (some "") es nodes
      = if ("" : String) = "" then [] else expandedIdsCore "" es nodes from rfl,
    if_pos rfl]

theorem mem_expandedIdsCore (f : String) (es : List RawEdge) (nodes : List GraphNode)
    (x : String) :
    x ∈ expandedIdsCore f es nodes ↔
      isEvLesId nodes x = true ∧
        (x ∈ neighbors (buildAdj es) f ∨
          ∃ m, m ∈ neighbors (buildAdj es) f ∧ isStrategyId nodes m = true ∧
            x ∈ neighbors (buildAdj es) m) := by
  rw [show expandedIdsCore f es nodes =
      (neighbors (buildAdj es) f).foldl
        (fun acc i =>
          if isStrategyId nodes i then
            addMatching nodes acc (neighbors (buildAdj es) i)
          else acc)
        (addMatching nodes [] (neighbors (buildAdj es) f)) from rfl]
  rw [mem_foldl_strategyHop, mem_addMatching]
  simp only [List.not_mem_nil, false_or]
  constructor
  · rintro (⟨hx, hev⟩ | ⟨m, hm, hsm, hxm, hev⟩)
    · exact ⟨hev, Or.inl hx⟩
    · exact ⟨hev, Or.inr ⟨m, hm, hsm, hxm⟩⟩
  · rintro ⟨hev, hx | ⟨m, hm, hsm, hxm⟩⟩
    · exact Or.inl ⟨hx, hev⟩
    · exact Or.inr ⟨m, hm, hsm, hxm, hev⟩

theorem isEvLesId_iff (nodes : List GraphNode) (x : String) :
    isEvLesId nodes x = true ↔
      ∃ n, nodeById nodes x = some n ∧
        (n.type = NodeType.evidence ∨ n.type = NodeType.lesson) := by
  unfold isEvLesId
  cases h : nodeById nodes x with
  | none => simp
  | some n => simp [decide_eq_true_eq]

theorem isStrategyId_iff (nodes : List GraphNode) (x : String) :
    isStrategyId nodes x = true ↔
      ∃ n, nodeById nodes x = some n ∧ n.type = NodeType.strategy := by
  unfold isStrategyId
  cases h : nodeById nodes x with
  | none => simp
  | some n => simp [decide_eq_true_eq]

/-- C3 counterexample to the claim as stated: the focus "" is non-null and
has a direct evidence neighbor, yet the resolver (whose source guard
`if (!expandedCompany)` treats the empty string as falsy) returns the empty
set, so the claimed union characterization fails at this input. -/
theorem c3_expansion_resolver_counterexample :
    ("e1" ∉ expandedIds (some "") [RawEdge.mk "" "e1" "supports"]
        [GraphNode.mk "e1" "E1" NodeType.evidence none none])
    ∧ ("e1" ∈ neighbors (buildAdj [RawEdge.mk "" "e1" "supports"]) "")
    ∧ nodeById [GraphNode.mk "e1" "E1" NodeType.evidence none none] "e1"
        = some (GraphNode.mk "e1" "E1" NodeType.evidence none none)
    ∧ (GraphNode.mk "e1" "E1" NodeType.evidence none none).type
        = NodeType.evidence := by decide

/-- C3 (amended): the expansion resolver returns the empty set for a null
focus and also for the empty-string focus (the source's falsiness guard);
for every other focus it returns exactly the union of the focus's direct
evidence/lesson neighbors and, through every strategy neighbor of the focus,
that strategy's evidence/lesson neighbors; it never contains a strategy or
company node. -/
theorem c3_expansion_resolver (es : List RawEdge) (nodes : List GraphNode) :
    expandedIds none es nodes = []
    ∧ expandedIds (some "") es nodes = []
    ∧ (∀ f x, f ≠ "" →
        (x ∈ expandedIds (some f) es nodes ↔
          ((∃ n, nodeById nodes x = some n ∧
              (n.type = NodeType.evidence ∨ n.type = NodeType.lesson)) ∧
            (x ∈ neighbors (buildAdj es) f ∨
              ∃ m, m ∈ neighbors (buildAdj es) f ∧
                (∃ n, nodeById nodes m = some n ∧ n.type = NodeType.strategy) ∧
                x ∈ neighbors (buildAdj es) m))))
    ∧ (∀ f x, x ∈ expandedIds (some f) es nodes →
        ∀ n, nodeById nodes x = some n →
          n.type ≠ NodeType.strategy ∧ n.type ≠ NodeType.company) := by
  refine ⟨rfl, expandedIds_empty_string es nodes, ?_, ?_⟩
  · intro f x hf
    rw [expandedIds_some f hf, mem_expandedIdsCore, isEvLesId_iff]
    constructor
    · rintro ⟨hev, hx | ⟨m, hm, hsm, hxm⟩⟩
      · exact ⟨hev, Or.inl hx⟩
      · exact ⟨hev, Or.inr ⟨m, hm, (isStrategyId_iff nodes m).mp hsm, hxm⟩⟩
    · rintro ⟨hev, hx | ⟨m, hm, hsm, hxm⟩⟩
      · exact ⟨hev, Or.inl hx⟩
      · exact ⟨hev, Or.inr ⟨m, hm, (isStrategyId_iff nodes m).mpr hsm, hxm⟩⟩
  · intro f x hx n hn
    by_cases hf : f = ""
    · subst hf
      rw [expandedIds_empty_string es nodes] at hx
      exact absurd hx (List.not_mem_nil x)
    · rw [expandedIds_some f hf] at hx
      have hev : isEvLesId nodes x = true :=
        ((mem_expandedIdsCore f es nodes x).mp hx).1
      rcases (isEvLesId_iff nodes x).mp hev with ⟨n2, hn2, hty⟩
      rw [hn] at hn2
      have heq : n = n2 := Option.some.inj hn2
      subst heq
      rcases hty with h1 | h1 <;> rw [h1] <;>
        exact ⟨fun hc => NodeType.noConfusion hc, fun hc => NodeType.noConfusion hc⟩

/-- Witness for C3 on a concrete four-node graph: the lesson revealed through
the strategy hop is in the expansion and resolves to a non-strategy,
non-company node. -/
theorem c3_expansion_resolver_witness :
    ("l1" ∈ expandedIds (some "c1")
        [RawEdge.mk "c1" "e1" "supports", RawEdge.mk "c1" "s1" "targets",
          RawEdge.mk "s1" "l1" "learned"]
        [GraphNode.mk "c1" "C1" NodeType.company none (some "Strike"),
          GraphNode.mk "s1" "S1" NodeType.strategy (some 1) none,
          GraphNode.mk "e1" "E1" NodeType.evidence none none,
          GraphNode.mk "l1" "L1" NodeType.lesson none none])
    ∧ (∀ n, nodeById
        [GraphNode.mk "c1" "C1" NodeType.company none (some "Strike"),
          GraphNode.mk "s1" "S1" NodeType.strategy (some 1) none,
          GraphNode.mk "e1" "E1" NodeType.evidence none none,
          GraphNode.mk "l1" "L1" NodeType.lesson none none] "l1" = some n →
        n.type ≠ NodeType.strategy ∧ n.type ≠ NodeType.company) :=
  ⟨by decide,
    (c3_expansion_resolver
      [RawEdge.mk "c1" "e1" "supports", RawEdge.mk "c1" "s1" "targets",
        RawEdge.mk "s1" "l1" "learned"]
      [GraphNode.mk "c1" "C1" NodeType.company none (some "Strike"),
        GraphNode.mk "s1" "S1" NodeType.strategy (some 1) none,
        GraphNode.mk "e1" "E1" NodeType.evidence none none,
        GraphNode.mk "l1" "L1" NodeType.lesson none none]).2.2.2 "c1" "l1" (by decide)⟩

theorem mem_visibleNodeIds (nodes : List GraphNode) (active : List Classification)
    (expanded : List String) (latest : Option String) (x : String) :
    x ∈ visibleNodeIds nodes active expanded latest ↔
      ∃ n, n ∈ nodes ∧ nodeVisible active expanded latest n = true ∧ n.id = x := by
  rw [visibleNodeIds, mem_foldl_guard]
  simp only [List.not_mem_nil, false_or]

theorem nodeVisible_strategy (active : List Classification) (expanded : List String)
    (latest : Option String) (n : GraphNode) (h : n.type = NodeType.strategy) :
    nodeVisible active expanded latest n = true ↔ latest = some n.id := by
  unfold nodeVisible
  by_cases hl : latest = some n.id
  · rw [if_pos ⟨h, hl⟩]
    simp [hl]
  · rw [if_neg (fun hc => hl hc.2)]
    rw [if_neg (show ¬n.type = NodeType.company from by
      rw [h]; exact fun hc => NodeType.noConfusion hc)]
    rw [if_neg (show ¬((n.type = NodeType.evidence ∨ n.type = NodeType.lesson)
        ∧ n.id ∈ expanded) from by
      rw [h]; rintro ⟨h1 | h1, h2⟩ <;> exact NodeType.noConfusion h1)]
    simp [hl]

theorem nodeVisible_company (active : List Classification) (expanded : List String)
    (latest : Option String) (n : GraphNode) (h : n.type = NodeType.company) :
    nodeVisible active expanded latest n = true ↔
      getCompanyClassification n ∈ active := by
  unfold nodeVisible
  rw [if_neg (show ¬(n.type = NodeType.strategy ∧ latest = some n.id) from by
    rw [h]; rintro ⟨h1, h2⟩; exact NodeType.noConfusion h1)]
  rw [if_pos h]
  simp [decide_eq_true_eq]

theorem nodeVisible_evles (active : List Classification) (expanded : List String)
    (latest : Option String) (n : GraphNode)
    (h : n.type = NodeType.evidence ∨ n.type = NodeType.lesson) :
    nodeVisible active expanded latest n = true ↔ n.id ∈ expanded := by
  unfold nodeVisible
  rw [if_neg (show ¬(n.type = NodeType.strategy ∧ latest = some n.id) from by
    rintro ⟨hc, h2⟩; rcases h with h0 | h0 <;> rw [h0] at hc <;>
      exact NodeType.noConfusion hc)]
  rw [if_neg (show ¬n.type = NodeType.company from by
    rcases h with h0 | h0 <;> rw [h0] <;> exact fun hc => NodeType.noConfusion hc)]
  by_cases hx : n.id ∈ expanded
  · rw [if_pos ⟨h, hx⟩]
    simp [hx]
  · rw [if_neg (fun hc => hx hc.2)]
    simp [hx]

theorem mem_id_unique : ∀ (nodes : List GraphNode),
    (nodes.map GraphNode.id).Nodup →
    ∀ a b : GraphNode, a ∈ nodes → b ∈ nodes → a.id = b.id → a = b := by
  intro nodes
  induction nodes with
  | nil =>
    intro h a b ha
    exact absurd ha (List.not_mem_nil a)
  | cons n l ih =>
    intro h a b ha hb hid
    rw [List.map_cons, List.nodup_cons] at h
    rcases List.mem_cons.mp ha with rfl | ha2
    · rcases List.mem_cons.mp hb with rfl | hb2
      · rfl
      · have hmem : b.id ∈ l.map GraphNode.id := List.mem_map_of_mem GraphNode.id hb2
        rw [← hid] at hmem
        exact absurd hmem h.1
    · rcases List.mem_cons.mp hb with rfl | hb2
      · have hmem : a.id ∈ l.map GraphNode.id := List.mem_map_of_mem GraphNode.id ha2
        rw [hid] at hmem
        exact absurd hmem h.1
      · exact ih h.2 a b ha2 hb2 hid

theorem mem_visible_iff_nodeVisible (nodes : List GraphNode)
    (active : List Classification) (expanded : List String) (latest : Option String)
    (hids : (nodes.map GraphNode.id).Nodup) (n : GraphNode) (hn : n ∈ nodes) :
    n.id ∈ visibleNodeIds nodes active expanded latest ↔
      nodeVisible active expanded latest n = true := by
  rw [mem_visibleNodeIds]
  constructor
  · rintro ⟨m, hm, hv, hmid⟩
    have heq : m = n := mem_id_unique nodes hids m n hm hn hmid
    subst heq
    exact hv
  · intro hv
    exact ⟨n, hn, hv, rfl⟩

/-- C1: under unique ids, a company node is visible iff its resolved
classification is active; an evidence or lesson node is visible iff its id is
expansion-revealed; an empty active set hides every company node and leaves
the visibility of every non-company node unchanged. -/
theorem c1_visibility_filter (nodes : List GraphNode) (active : List Classification)
    (expanded : List String) (latest : Option String)
    (hids : (nodes.map GraphNode.id).Nodup) :
    ∀ n ∈ nodes,
      (n.type = NodeType.company →
        (n.id ∈ visibleNodeIds nodes active expanded latest ↔
          getCompanyClassification n ∈ active))
      ∧ ((n.type = NodeType.evidence ∨ n.type = NodeType.lesson) →
        (n.id ∈ visibleNodeIds nodes active expanded latest ↔ n.id ∈ expanded))
      ∧ (active = [] → n.type = NodeType.company →
        n.id ∉ visibleNodeIds nodes active expanded latest)
      ∧ (n.type ≠ NodeType.company →
        (n.id ∈ visibleNodeIds nodes active expanded latest ↔
          n.id ∈ visibleNodeIds nodes [] expanded latest)) := by
  intro n hn
  refine ⟨?_, ?_, ?_, ?_⟩
  · intro hty
    exact (mem_visible_iff_nodeVisible nodes active expanded latest hids n hn).trans
      (nodeVisible_company active expanded latest n hty)
  · intro hty
    exact (mem_visible_iff_nodeVisible nodes active expanded latest hids n hn).trans
      (nodeVisible_evles active expanded latest n hty)
  · rintro rfl hty hmem
    have := ((mem_visible_iff_nodeVisible nodes [] expanded latest hids n hn).trans
      (nodeVisible_company [] expanded latest n hty)).mp hmem
    exact absurd this (List.not_mem_nil _)
  · intro hty
    cases hc : n.type with
    | strategy =>
      exact ((mem_visible_iff_nodeVisible nodes active expanded latest hids n hn).trans
        (nodeVisible_strategy active expanded latest n hc)).trans
        (((mem_visible_iff_nodeVisible nodes [] expanded latest hids n hn).trans
          (nodeVisible_strategy [] expanded latest n hc)).symm)
    | company => exact absurd hc hty
    | evidence =>
      exact ((mem_visible_iff_nodeVisible nodes active expanded latest hids n hn).trans
        (nodeVisible_evles active expanded latest n (Or.inl hc))).trans
        (((mem_visible_iff_nodeVisible nodes [] expanded latest hids n hn).trans
          (nodeVisible_evles [] expanded latest n (Or.inl hc))).symm)
    | lesson =>
      exact ((mem_visible_iff_nodeVisible nodes active expanded latest hids n hn).trans
        (nodeVisible_evles active expanded latest n (Or.inr hc))).trans
        (((mem_visible_iff_nodeVisible nodes [] expanded latest hids n hn).trans
          (nodeVisible_evles [] expanded latest n (Or.inr hc))).symm)

/-- Witness for C1 on a two-node graph with one active classification. -/
theorem c1_visibility_filter_witness :
    (([GraphNode.mk "c1" "C1" NodeType.company none (some "Strike"),
        GraphNode.mk "e1" "E1" NodeType.evidence none none].map GraphNode.id).Nodup)
    ∧ ((GraphNode.mk "c1" "C1" NodeType.company none (some "Strike")).id ∈
        visibleNodeIds
          [GraphNode.mk "c1" "C1" NodeType.company none (some "Strike"),
            GraphNode.mk "e1" "E1" NodeType.evidence none none]
          [Classification.Strike] ["e1"] none ↔
      getCompanyClassification
          (GraphNode.mk "c1" "C1" NodeType.company none (some "Strike"))
        ∈ [Classification.Strike]) :=
  ⟨by decide,
    ((c1_visibility_filter
      [GraphNode.mk "c1" "C1" NodeType.company none (some "Strike"),
        GraphNode.mk "e1" "E1" NodeType.evidence none none]
      [Classification.Strike] ["e1"] none (by decide)
      (GraphNode.mk "c1" "C1" NodeType.company none (some "Strike"))
      (List.mem_cons_self _ _)).1 rfl)⟩

/-- C4: the projector returns exactly the input nodes whose id is visible, in
input order, and exactly the input edges with both endpoints visible; when
every visible id belongs to some node (as holds for the computed visible-id
set, last conjunct), no returned edge has an endpoint outside the returned
node list and every dangling edge is dropped. -/
theorem c4_projector (nodes : List GraphNode) (es : List RawEdge)
    (visible : List String) (active : List Classification) (expanded : List String)
    (latest : Option String)
    (hvis : ∀ i ∈ visible, ∃ n ∈ nodes, n.id = i) :
    ((project nodes es visible).nodes.Sublist nodes)
    ∧ (∀ n, n ∈ (project nodes es visible).nodes ↔ n ∈ nodes ∧ n.id ∈ visible)
    ∧ (∀ e, e ∈ (project nodes es visible).links ↔
        e ∈ es ∧ e.source ∈ visible ∧ e.target ∈ visible)
    ∧ (∀ e ∈ (project nodes es visible).links,
        (∃ n ∈ (project nodes es visible).nodes, n.id = e.source)
          ∧ (∃ n ∈ (project nodes es visible).nodes, n.id = e.target))
    ∧ (∀ e ∈ es, (∀ n ∈ nodes, n.id ≠ e.source) →
        e ∉ (project nodes es visible).links)
    ∧ (∀ i ∈ visibleNodeIds nodes active expanded latest, ∃ n ∈ nodes, n.id = i) := by
  have hnodes : ∀ n, n ∈ (project nodes es visible).nodes ↔
      n ∈ nodes ∧ n.id ∈ visible := by
    intro n
    rw [show (project nodes es visible).nodes
        = nodes.filter (fun n => decide (n.id ∈ visible)) from rfl]
    rw [List.mem_filter]
    simp [decide_eq_true_eq]
  have hlinks : ∀ e, e ∈ (project nodes es visible).links ↔
      e ∈ es ∧ e.source ∈ visible ∧ e.target ∈ visible := by
    intro e
    rw [show (project nodes es visible).links
        = es.filter
            (fun e => decide (e.source ∈ visible) && decide (e.target ∈ visible))
          from rfl]
    rw [List.mem_filter]
    simp [decide_eq_true_eq, Bool.and_eq_true]
  refine ⟨List.filter_sublist nodes, hnodes, hlinks, ?_, ?_, ?_⟩
  · intro e he
    rcases (hlinks e).mp he with ⟨hes, hsrc, htgt⟩
    rcases hvis e.source hsrc with ⟨n1, hn1, hid1⟩
    rcases hvis e.target htgt with ⟨n2, hn2, hid2⟩
    refine ⟨⟨n1, (hnodes n1).mpr ⟨hn1, ?_⟩, hid1⟩, ⟨n2, (hnodes n2).mpr ⟨hn2, ?_⟩, hid2⟩⟩
    · rw [hid1]; exact hsrc
    · rw [hid2]; exact htgt
  · intro e hes hno he
    rcases (hlinks e).mp he with ⟨_, hsrc, _⟩
    rcases hvis e.source hsrc with ⟨n1, hn1, hid1⟩
    exact hno n1 hn1 hid1
  · intro i hi
    rcases (mem_visibleNodeIds nodes active expanded latest i).mp hi with ⟨n, hn, _, hid⟩
    exact ⟨n, hn, hid⟩

/-- Witness for C4 on a one-node, two-edge graph where one edge dangles. -/
theorem c4_projector_witness :
    (∀ i ∈ ["c1"], ∃ n ∈ [GraphNode.mk "c1" "C1" NodeType.company none none],
        GraphNode.id n = i)
    ∧ (∀ e ∈ (project [GraphNode.mk "c1" "C1" NodeType.company none none]
          [RawEdge.mk "c1" "c1" "self", RawEdge.mk "c1" "ghost" "dangling"]
          ["c1"]).links,
        (∃ n ∈ (project [GraphNode.mk "c1" "C1" NodeType.company none none]
            [RawEdge.mk "c1" "c1" "self", RawEdge.mk "c1" "ghost" "dangling"]
            ["c1"]).nodes, GraphNode.id n = e.source)
          ∧ (∃ n ∈ (project [GraphNode.mk "c1" "C1" NodeType.company none none]
              [RawEdge.mk "c1" "c1" "self", RawEdge.mk "c1" "ghost" "dangling"]
              ["c1"]).nodes, GraphNode.id n = e.target)) :=
  ⟨by decide,
    (c4_projector [GraphNode.mk "c1" "C1" NodeType.company none none]
      [RawEdge.mk "c1" "c1" "self", RawEdge.mk "c1" "ghost" "dangling"]
      ["c1"] [] [] none (by decide)).2.2.2.1⟩

theorem foldl_pickBest_eq (l : List GraphNode) :
    ∀ acc : Option GraphNode, l.foldl pickBest acc = (strategies l).foldl pickBestS acc := by
  induction l with
  | nil =>
    intro acc
    rfl
  | cons n l ih =>
    intro acc
    rw [List.foldl_cons]
    by_cases h : n.type = NodeType.strategy
    · have hs : strategies (n :: l) = n :: strategies l := by
        simp [strategies, List.filter_cons, h]
      rw [hs, List.foldl_cons]
      have hpb : pickBest acc n = pickBestS acc n := by
        unfold pickBest pickBestS pick2
        rw [if_pos h]
        cases acc with
        | none => rfl
        | some b => exact (apply_ite some (ver b < ver n) n b).symm
      rw [hpb]
      exact ih _
    · have hs : strategies (n :: l) = strategies l := by
        simp [strategies, List.filter_cons, h]
      rw [hs]
      have hpb : pickBest acc n = acc := by
        unfold pickBest
        rw [if_neg h]
      rw [hpb]
      exact ih _

theorem foldl_pickBestS_some (ss : List GraphNode) :
    ∀ b : GraphNode, ss.foldl pickBestS (some b) = some (ss.foldl pick2 b) := by
  induction ss with
  | nil =>
    intro b
    rfl
  | cons n ss ih =>
    intro b
    rw [List.foldl_cons, List.foldl_cons]
    exact ih (pick2 b n)

theorem pick2_foldl_spec (ss : List GraphNode) :
    ∀ b : GraphNode,
      (∀ t ∈ b :: ss, ver t ≤ ver (ss.foldl pick2 b))
      ∧ ∃ l1 l2, b :: ss = l1 ++ (ss.foldl pick2 b) :: l2
          ∧ ∀ t ∈ l1, ver t < ver (ss.foldl pick2 b) := by
  induction ss with
  | nil =>
    intro b
    constructor
    · intro t ht
      have h1 : t = b := List.mem_singleton.mp ht
      rw [h1]
      exact le_refl (ver b)
    · exact ⟨[], [], rfl, by simp⟩
  | cons n ss ih =>
    intro b
    rw [List.foldl_cons]
    obtain ⟨hmax, l1, l2, hsplit, hlt⟩ := ih (pick2 b n)
    by_cases h : ver b < ver n
    · have hp : pick2 b n = n := by
        rw [pick2, if_pos h]
      rw [hp] at hmax hsplit hlt ⊢
      constructor
      · intro t ht
        rcases List.mem_cons.mp ht with h0 | ht2
        · rw [h0]
          exact le_of_lt (lt_of_lt_of_le h (hmax n (List.mem_cons_self n ss)))
        · exact hmax t ht2
      · refine ⟨b :: l1, l2, ?_, ?_⟩
        · rw [List.cons_append, ← hsplit]
        · intro t ht
          rcases List.mem_cons.mp ht with h0 | ht2
          · rw [h0]
            exact lt_of_lt_of_le h (hmax n (List.mem_cons_self n ss))
          · exact hlt t ht2
    · have hp : pick2 b n = b := by
        rw [pick2, if_neg h]
      rw [hp] at hmax hsplit hlt ⊢
      have hnb : ver n ≤ ver b := not_lt.mp h
      constructor
      · intro t ht
        rcases List.mem_cons.mp ht with h0 | ht2
        · rw [h0]
          exact hmax b (List.mem_cons_self b ss)
        · rcases List.mem_cons.mp ht2 with h0 | ht3
          · rw [h0]
            exact le_trans hnb (hmax b (List.mem_cons_self b ss))
          · exact hmax t (List.mem_cons_of_mem b ht3)
      · cases l1 with
        | nil =>
          rw [List.nil_append] at hsplit
          injection hsplit with h1 h2
          refine ⟨[], n :: l2, ?_, by simp⟩
          rw [List.nil_append, ← h1, h2]
        | cons q l1 =>
          rw [List.cons_append] at hsplit
          injection hsplit with h1 h2
          have hq : ver b < ver (ss.foldl pick2 b) := by
            have h0 := hlt q (List.mem_cons_self q l1)
            rw [← h1] at h0
            exact h0
          refine ⟨b :: n :: l1, l2, ?_, ?_⟩
          · rw [List.cons_append, List.cons_append, ← h2]
          · intro t ht
            rcases List.mem_cons.mp ht with h0 | ht2
            · rw [h0]
              exact hq
            · rcases List.mem_cons.mp ht2 with h0 | ht3
              · rw [h0]
                exact lt_of_le_of_lt hnb hq
              · exact hlt t (List.mem_cons_of_mem q ht3)

theorem first_max_unique :
    ∀ (l1 : List GraphNode) (l2 m1 m2 : List GraphNode) (r s : GraphNode),
      l1 ++ r :: l2 = m1 ++ s :: m2 →
      (∀ t ∈ l1, ver t < ver r) → (∀ t ∈ m1, ver t < ver s) →
      ver s ≤ ver r → ver r ≤ ver s → r = s := by
  intro l1
  induction l1 with
  | nil =>
    intro l2 m1 m2 r s heq hl hm hsr hrs
    cases m1 with
    | nil =>
      rw [List.nil_append, List.nil_append] at heq
      injection heq with h1 h2
    | cons q m1 =>
      rw [List.nil_append, List.cons_append] at heq
      injection heq with h1 h2
      have hq : ver q < ver s := hm q (List.mem_cons_self q m1)
      rw [← h1] at hq
      exact absurd hq (not_lt.mpr hsr)
  | cons q l1 ih =>
    intro l2 m1 m2 r s heq hl hm hsr hrs
    cases m1 with
    | nil =>
      rw [List.nil_append, List.cons_append] at heq
      injection heq with h1 h2
      have hq : ver q < ver r := hl q (List.mem_cons_self q l1)
      rw [h1] at hq
      exact absurd hq (not_lt.mpr hrs)
    | cons p m1 =>
      rw [List.cons_append, List.cons_append] at heq
      injection heq with h1 h2
      exact ih l2 m1 m2 r s h2 (fun t ht => hl t (List.mem_cons_of_mem q ht))
        (fun t ht => hm t (List.mem_cons_of_mem p ht)) hsr hrs

/-- Full characterization of `latestStrategy`: it is none exactly when there
is no strategy node, and some `s` exactly when `s` has maximal version among
strategy nodes and occurs before every other strategy node attaining that
maximum. -/
theorem latestStrategy_spec (nodes : List GraphNode) :
    (latestStrategy nodes = none ↔ strategies nodes = [])
    ∧ ∀ s, latestStrategy nodes = some s ↔
        ((∀ t ∈ strategies nodes, ver t ≤ ver s)
          ∧ ∃ l1 l2, strategies nodes = l1 ++ s :: l2 ∧ ∀ t ∈ l1, ver t < ver s) := by
  have hfold : latestStrategy nodes = (strategies nodes).foldl pickBestS none :=
    foldl_pickBest_eq nodes none
  cases hss : strategies nodes with
  | nil =>
    rw [hss] at hfold
    constructor
    · rw [hfold]
      simp
    · intro s
      rw [hfold]
      constructor
      · intro h
        exact absurd h (by simp)
      · rintro ⟨hmax, l1, l2, hsplit, hlt⟩
        cases l1 <;> simp at hsplit
  | cons b ss =>
    rw [hss, List.foldl_cons] at hfold
    rw [show pickBestS none b = some b from rfl] at hfold
    rw [foldl_pickBestS_some ss b] at hfold
    obtain ⟨hmax, l1, l2, hsplit, hlt⟩ := pick2_foldl_spec ss b
    constructor
    · rw [hfold]
      simp
    · intro s
      rw [hfold]
      constructor
      · intro h
        have hrs : ss.foldl pick2 b = s := Option.some.inj h
        subst hrs
        exact ⟨hmax, l1, l2, hsplit, hlt⟩
      · rintro ⟨hmax2, m1, m2, hsplit2, hlt2⟩
        have hsmem : s ∈ b :: ss := by
          rw [hsplit2]
          exact List.mem_append_right m1 (List.mem_cons_self s m2)
        have hrmem : ss.foldl pick2 b ∈ b :: ss := by
          rw [hsplit]
          exact List.mem_append_right l1 (List.mem_cons_self _ l2)
        have heq : ss.foldl pick2 b = s :=
          first_max_unique l1 l2 m1 m2 (ss.foldl pick2 b) s
            (hsplit.symm.trans hsplit2) hlt hlt2 (hmax s hsmem) (hmax2 _ hrmem)
        rw [heq]

theorem length_le_one_of_pairwise_id (l : List GraphNode)
    (hn : (l.map GraphNode.id).Nodup)
    (hc : ∀ x ∈ l, ∀ y ∈ l, GraphNode.id x = GraphNode.id y) :
    l.length ≤ 1 := by
  cases l with
  | nil => simp
  | cons a l =>
    cases l with
    | nil => simp
    | cons b l =>
      rw [List.map_cons, List.map_cons, List.nodup_cons] at hn
      exfalso
      apply hn.1
      exact List.mem_cons.mpr (Or.inl
        (hc a (List.mem_cons_self a _) b
          (List.mem_cons_of_mem a (List.mem_cons_self b l))))

/-- C2: under unique ids, a strategy node is visible iff its id is the
selected latest-strategy id, the projected node list holds at most one
strategy node, and the selected node is exactly the strategy node of maximal
version occurring first (strictly greater version than every earlier strategy
node). -/
theorem c2_latest_strategy_selection (nodes : List GraphNode) (es : List RawEdge)
    (active : List Classification) (expanded : List String)
    (hids : (nodes.map GraphNode.id).Nodup) :
    (∀ s ∈ nodes, s.type = NodeType.strategy →
      (s.id ∈ visibleNodeIds nodes active expanded (latestStrategyId nodes) ↔
        latestStrategyId nodes = some s.id))
    ∧ ((project nodes es
          (visibleNodeIds nodes active expanded (latestStrategyId nodes))).nodes.filter
        (fun n => decide (n.type = NodeType.strategy))).length ≤ 1
    ∧ (∀ s, latestStrategy nodes = some s ↔
        ((∀ t ∈ strategies nodes, ver t ≤ ver s)
          ∧ ∃ l1 l2, strategies nodes = l1 ++ s :: l2 ∧ ∀ t ∈ l1, ver t < ver s)) := by
  have hvis : ∀ s ∈ nodes, s.type = NodeType.strategy →
      (s.id ∈ visibleNodeIds nodes active expanded (latestStrategyId nodes) ↔
        latestStrategyId nodes = some s.id) := by
    intro s hs hty
    exact (mem_visible_iff_nodeVisible nodes active expanded
        (latestStrategyId nodes) hids s hs).trans
      (nodeVisible_strategy active expanded (latestStrategyId nodes) s hty)
  refine ⟨hvis, ?_, (latestStrategy_spec nodes).2⟩
  have hmemproj : ∀ x,
      x ∈ (project nodes es
          (visibleNodeIds nodes active expanded (latestStrategyId nodes))).nodes.filter
        (fun n => decide (n.type = NodeType.strategy)) →
      x ∈ nodes ∧ latestStrategyId nodes = some x.id := by
    intro x hx
    rw [List.mem_filter] at hx
    rcases hx with ⟨hxp, hxs⟩
    rw [show (project nodes es
        (visibleNodeIds nodes active expanded (latestStrategyId nodes))).nodes
        = nodes.filter (fun n => decide (n.id ∈
            visibleNodeIds nodes active expanded (latestStrategyId nodes))) from rfl,
      List.mem_filter] at hxp
    rcases hxp with ⟨hxn, hxv⟩
    rw [decide_eq_true_eq] at hxs hxv
    exact ⟨hxn, (hvis x hxn hxs).mp hxv⟩
  have hsub : ((project nodes es
        (visibleNodeIds nodes active expanded (latestStrategyId nodes))).nodes.filter
      (fun n => decide (n.type = NodeType.strategy))).Sublist nodes :=
    (List.filter_sublist _).trans (List.filter_sublist nodes)
  have hnod : (((project nodes es
        (visibleNodeIds nodes active expanded (latestStrategyId nodes))).nodes.filter
      (fun n => decide (n.type = NodeType.strategy))).map GraphNode.id).Nodup :=
    List.Nodup.sublist (List.Sublist.map GraphNode.id hsub) hids
  apply length_le_one_of_pairwise_id _ hnod
  intro x hx y hy
  have h2 := (hmemproj x hx).2
  have h3 := (hmemproj y hy).2
  exact Option.some.inj (h2.symm.trans h3)

/-- Witness for C2 on the spec scenario: two strategy versions and one
company node, all ids distinct. -/
theorem c2_latest_strategy_selection_witness :
    (([GraphNode.mk "s1" "S1" NodeType.strategy (some 1) none,
        GraphNode.mk "s2" "S2" NodeType.strategy (some 2) none,
        GraphNode.mk "c1" "C1" NodeType.company none (some "Strike")].map
      GraphNode.id).Nodup)
    ∧ ((project
          [GraphNode.mk "s1" "S1" NodeType.strategy (some 1) none,
            GraphNode.mk "s2" "S2" NodeType.strategy (some 2) none,
            GraphNode.mk "c1" "C1" NodeType.company none (some "Strike")]
          [RawEdge.mk "s2" "c1" "targets"]
          (visibleNodeIds
            [GraphNode.mk "s1" "S1" NodeType.strategy (some 1) none,
              GraphNode.mk "s2" "S2" NodeType.strategy (some 2) none,
              GraphNode.mk "c1" "C1" NodeType.company none (some "Strike")]
            [Classification.Strike, Classification.Monitor, Classification.Disregard,
              Classification.Unclassified]
            []
            (latestStrategyId
              [GraphNode.mk "s1" "S1" NodeType.strategy (some 1) none,
                GraphNode.mk "s2" "S2" NodeType.strategy (some 2) none,
                GraphNode.mk "c1" "C1" NodeType.company none (some "Strike")]))).nodes.filter
        (fun n => decide (n.type = NodeType.strategy))).length ≤ 1 :=
  ⟨by decide,
    (c2_latest_strategy_selection
      [GraphNode.mk "s1" "S1" NodeType.strategy (some 1) none,
        GraphNode.mk "s2" "S2" NodeType.strategy (some 2) none,
        GraphNode.mk "c1" "C1" NodeType.company none (some "Strike")]
      [RawEdge.mk "s2" "c1" "targets"]
      [Classification.Strike, Classification.Monitor, Classification.Disregard,
        Classification.Unclassified]
      [] (by decide)).2.1⟩

/-- C9: a version-less strategy node is compared as version 0, so it is
selected as latest exactly when no strategy node has version above 0 and no
version-less or version-0 strategy node precedes it. -/
theorem c9_versionless_strategy (nodes : List GraphNode) (s : GraphNode)
    (_hty : s.type = NodeType.strategy) (hver : s.version = none) :
    latestStrategy nodes = some s ↔
      ((∀ t ∈ strategies nodes, ver t ≤ 0)
        ∧ ∃ l1 l2, strategies nodes = l1 ++ s :: l2
            ∧ ∀ t ∈ l1, ¬(t.version = none ∨ t.version = some 0)) := by
  have hs0 : ver s = 0 := by
    rw [ver, hver]
    rfl
  rw [(latestStrategy_spec nodes).2 s, hs0]
  constructor
  · rintro ⟨hmax, l1, l2, hsplit, hlt⟩
    refine ⟨hmax, l1, l2, hsplit, ?_⟩
    intro t ht hv
    have hlt0 : ver t < 0 := hlt t ht
    have ht0 : ver t = 0 := by
      rcases hv with hv | hv <;> rw [ver, hv] <;> rfl
    rw [ht0] at hlt0
    exact absurd hlt0 (lt_irrefl 0)
  · rintro ⟨hmax, l1, l2, hsplit, hne⟩
    refine ⟨hmax, l1, l2, hsplit, ?_⟩
    intro t ht
    have htmem : t ∈ strategies nodes := by
      rw [hsplit]
      exact List.mem_append_left _ ht
    have hle : ver t ≤ 0 := hmax t htmem
    rcases lt_or_eq_of_le hle with hlt0 | heq0
    · exact hlt0
    · exfalso
      apply hne t ht
      rw [ver] at heq0
      cases hv : t.version with
      | none => exact Or.inl rfl
      | some v =>
        rw [hv] at heq0
        have hv0 : v = 0 := heq0
        exact Or.inr (by rw [hv0])

/-- Witness for C9: a version-less strategy preceded only by a negative
version is selected; instantiates the equivalence at that list. -/
theorem c9_versionless_strategy_witness :
    ((GraphNode.mk "s2" "S2" NodeType.strategy none none).type = NodeType.strategy)
    ∧ ((GraphNode.mk "s2" "S2" NodeType.strategy none none).version = none)
    ∧ (latestStrategy
        [GraphNode.mk "s1" "S1" NodeType.strategy (some (-1)) none,
          GraphNode.mk "s2" "S2" NodeType.strategy none none]
        = some (GraphNode.mk "s2" "S2" NodeType.strategy none none) ↔
      ((∀ t ∈ strategies
          [GraphNode.mk "s1" "S1" NodeType.strategy (some (-1)) none,
            GraphNode.mk "s2" "S2" NodeType.strategy none none], ver t ≤ 0)
        ∧ ∃ l1 l2, strategies
            [GraphNode.mk "s1" "S1" NodeType.strategy (some (-1)) none,
              GraphNode.mk "s2" "S2" NodeType.strategy none none]
            = l1 ++ (GraphNode.mk "s2" "S2" NodeType.strategy none none) :: l2
            ∧ ∀ t ∈ l1, ¬(t.version = none ∨ t.version = some 0))) :=
  ⟨rfl, rfl,
    c9_versionless_strategy
      [GraphNode.mk "s1" "S1" NodeType.strategy (some (-1)) none,
        GraphNode.mk "s2" "S2" NodeType.strategy none none]
      (GraphNode.mk "s2" "S2" NodeType.strategy none none) rfl rfl⟩

end HackGraph
